import Mathlib

/-!
Verification development for the chat-story video generator.

The definitions below are shallow embeddings of the repository's JavaScript
sources:
  * `Server`       — `src/server.js` (non-decimated renderer variant);
  * `Server00`     — `src/unnamed/part_000` (decimated variant with optional
                     background compositing);
  * `Renderer01`   — `src/unnamed/part_001` (canvas renderer with visible
                     message tracking);
  * `VideoSvc`     — `src/video-generator-app/src/services/videoService.js`;
  * `WrapText`     — the (identical) `wrapText` functions of both canvas
                     renderers;
  * `FrameNames`   — the frame-filename scheme `frame_<padded ordinal>.<ext>`.

Machine floats of the source are modelled by exact rationals; external
effects (puppeteer capture, ffmpeg encode, browser close, yt-dlp fetches)
are modelled by explicit success/failure flags supplied as environment
parameters.
-/

namespace Server

/-- Shallow embedding of the frame-capture schedule of `generateVideo`
(`src/server.js` and `src/unnamed/part_000`).  The code computes
`totalFrames = Math.floor(durationSec * fps / frameStep)` (with
`frameStep = 1` implicit in `src/server.js`, `frameStep = 2` in
`src/unnamed/part_000`) and loops `i = 0 .. totalFrames-1`. -/
def totalFrames (durationSec fps : ℚ) (frameStep : ℕ) : ℕ :=
  (⌊durationSec * fps / (frameStep : ℚ)⌋).toNat

/-- The sample timestamps `t = (i * frameStep) / fps` produced by the
frame-capture loop, in loop order. -/
def captureTimestamps (durationSec fps : ℚ) (frameStep : ℕ) : List ℚ :=
  (List.range (totalFrames durationSec fps frameStep)).map
    (fun (i : ℕ) => ((i : ℚ) * (frameStep : ℚ)) / fps)

end Server

theorem Server.length_captureTimestamps (durationSec fps : ℚ) (d : ℕ) :
    (captureTimestamps durationSec fps d).length
      = (⌊durationSec * fps / (d : ℚ)⌋).toNat := by
  rw [captureTimestamps, List.length_map, List.length_range, totalFrames]

/-- C1: For every valid job configuration (`durationSec > 0`, `fps > 0`,
decimation factor `d ≥ 1`), the frame-capture loop produces exactly
`⌊durationSec*fps/d⌋` sample timestamps `t_i = (i*d)/fps`, which are strictly
increasing and start at 0 (whenever any sample exists). -/
theorem Server.captureTimestamps_spec (durationSec fps : ℚ) (d : ℕ)
    (hdur : 0 < durationSec) (hfps : 0 < fps) (hd : 1 ≤ d) :
    (captureTimestamps durationSec fps d).length
        = (⌊durationSec * fps / (d : ℚ)⌋).toNat
      ∧ (∀ i : ℕ, (captureTimestamps durationSec fps d)[i]? =
          if i < (⌊durationSec * fps / (d : ℚ)⌋).toNat
          then some (((i : ℚ) * (d : ℚ)) / fps) else none)
      ∧ List.Chain' (· < ·) (captureTimestamps durationSec fps d)
      ∧ (0 < totalFrames durationSec fps d →
          (captureTimestamps durationSec fps d).head? = some 0) := by
  refine ⟨length_captureTimestamps durationSec fps d, ?_, ?_, ?_⟩
  · intro i
    rw [captureTimestamps, List.getElem?_map]
    by_cases hi : i < (⌊durationSec * fps / (d : ℚ)⌋).toNat
    · rw [List.getElem?_range (by simpa [totalFrames] using hi), if_pos hi]
      rfl
    · rw [if_neg hi, List.getElem?_eq_none, Option.map_none']
      rw [List.length_range, totalFrames]
      omega
  · have hmono : ∀ a b : ℕ, a < b →
        ((a : ℚ) * (d : ℚ)) / fps < ((b : ℚ) * (d : ℚ)) / fps := by
      intro a b hab
      have hdq : (0 : ℚ) < (d : ℚ) := by
        exact_mod_cast Nat.lt_of_lt_of_le Nat.zero_lt_one hd
      have : ((a : ℚ) * (d : ℚ)) < ((b : ℚ) * (d : ℚ)) := by
        have : (a : ℚ) < (b : ℚ) := by exact_mod_cast hab
        exact mul_lt_mul_of_pos_right this hdq
      exact div_lt_div_of_pos_right this hfps
    rw [captureTimestamps, List.chain'_map]
    cases hn : totalFrames durationSec fps d with
    | zero => simp
    | succ n =>
      exact (List.chain'_range_succ _ n).mpr (fun m hm => hmono m (m + 1) (by omega))
  · intro hpos
    unfold captureTimestamps
    rcases Nat.exists_eq_add_of_lt hpos with ⟨k, hk⟩
    rw [hk, List.range_succ_eq_map]
    simp

/-- Witness for C1 at `durationSec = 2`, `fps = 3`, `d = 1`. -/
theorem Server.captureTimestamps_spec_witness :
    (captureTimestamps 2 3 1).length = (⌊(2 : ℚ) * 3 / (1 : ℚ)⌋).toNat
      ∧ (∀ i : ℕ, (captureTimestamps 2 3 1)[i]? =
          if i < (⌊(2 : ℚ) * 3 / (1 : ℚ)⌋).toNat
          then some (((i : ℚ) * (1 : ℚ)) / 3) else none)
      ∧ List.Chain' (· < ·) (captureTimestamps 2 3 1)
      ∧ (0 < totalFrames 2 3 1 → (captureTimestamps 2 3 1).head? = some 0) :=
  Server.captureTimestamps_spec 2 3 1 (by norm_num) (by norm_num) (by norm_num)

/-! ## Job supervisor (`src/server.js` / `src/unnamed/part_000`) -/

/-- The values ever assigned to `job.status` in the sources are `'queued'`,
`'rendering'`, `'done'` and `'error'`.  `encoding` is included because the
specification names it as a status variant. -/
inductive JobStatus
  | queued
  | rendering
  | encoding
  | done
  | error
deriving DecidableEq, Repr

namespace Server

/-- Outcomes of the external effects of one `generateVideo` run:
whether every puppeteer capture round-trip succeeds, whether the ffmpeg
encode promise resolves, and whether `browser.close()` in the `finally`
block resolves. -/
structure RunEnv where
  captureOk : Bool
  encodeOk : Bool
  closeOk : Bool
deriving DecidableEq, Repr

/-- The sequence of values taken by `job.status`, in assignment order, for one
job of `src/server.js`:
`'queued'` at creation (`POST /api/generate`), `'rendering'` at the top of
`generateVideo`, then `'done'` on encoder success (before the `finally`
block runs), and `'error'` set by the fire-and-forget `.catch` whenever the
`generateVideo` promise rejects — including a rejection of
`browser.close()` raised from the `finally` block after `'done'`. -/
def statusTrace (env : RunEnv) : List JobStatus :=
  [JobStatus.queued, JobStatus.rendering] ++
    (if env.captureOk && env.encodeOk then
        [JobStatus.done] ++ (if env.closeOk then [] else [JobStatus.error])
      else [JobStatus.error])

/-- The transition graph asserted by the specification:
`queued → rendering → encoding → {done | error}`. -/
def specClaimEdge : JobStatus → JobStatus → Bool
  | .queued, .rendering => true
  | .rendering, .encoding => true
  | .encoding, .done => true
  | .encoding, .error => true
  | _, _ => false

/-- The transition graph actually realised by `src/server.js`. -/
def codeEdge : JobStatus → JobStatus → Bool
  | .queued, .rendering => true
  | .rendering, .done => true
  | .rendering, .error => true
  | .done, .error => true
  | _, _ => false

end Server

/-- C2 (counterexample): on the run where capture and encode succeed but
`browser.close()` rejects, the status trace is
`queued → rendering → done → error`: the job never passes through an
`encoding` status, takes the edge `rendering → done` which is not part of
the claimed chain, and leaves the terminal state `done`. -/
theorem Server.statusTrace_claim_cex :
    statusTrace ⟨true, true, false⟩
        = [JobStatus.queued, JobStatus.rendering, JobStatus.done,
           JobStatus.error]
      ∧ ¬ List.Chain' (fun a b => specClaimEdge a b = true)
          (statusTrace ⟨true, true, false⟩)
      ∧ JobStatus.encoding ∉ statusTrace ⟨true, true, false⟩ := by
  refine ⟨rfl, ?_, ?_⟩ <;>
    simp [statusTrace, List.chain'_cons, specClaimEdge]

/-- C2 (amended): every status trace of `src/server.js` follows
`queued → rendering → {done | error}`; the status `encoding` never occurs
(the encoding phase is surfaced through `job.message`/`job.progress` only);
`error` is absorbing; and when post-success cleanup (`browser.close()`)
succeeds, `done` is absorbing as well — the only transition out of `done`
is `done → error` on a cleanup failure. -/
theorem Server.statusTrace_amended (env : RunEnv) :
    List.Chain' (fun a b => codeEdge a b = true) (statusTrace env)
      ∧ JobStatus.encoding ∉ statusTrace env
      ∧ List.Chain' (fun a _ => a ≠ JobStatus.error) (statusTrace env)
      ∧ (env.closeOk = true →
          List.Chain' (fun a _ => a ≠ JobStatus.done ∧ a ≠ JobStatus.error)
            (statusTrace env)) := by
  obtain ⟨c, e, k⟩ := env
  cases c <;> cases e <;> cases k <;>
    simp [statusTrace, List.chain'_cons, codeEdge]

/-- Witness for the amended C2 theorem at the all-success environment. -/
theorem Server.statusTrace_amended_witness :
    List.Chain' (fun a b => codeEdge a b = true) (statusTrace ⟨true, true, true⟩)
      ∧ JobStatus.encoding ∉ statusTrace ⟨true, true, true⟩
      ∧ List.Chain' (fun a _ => a ≠ JobStatus.error)
          (statusTrace ⟨true, true, true⟩)
      ∧ List.Chain' (fun a _ => a ≠ JobStatus.done ∧ a ≠ JobStatus.error)
          (statusTrace ⟨true, true, true⟩) := by
  have h := Server.statusTrace_amended ⟨true, true, true⟩
  exact ⟨h.1, h.2.1, h.2.2.1, h.2.2.2 rfl⟩

/-! ## Background resolution and the decimated variant (`src/unnamed/part_000`) -/

namespace Server00

/-- Where a resolved background video comes from: a pre-existing library
asset under `/backgrounds/`, or a freshly fetched and rescaled download. -/
inductive BgSource
  | library
  | fetched
deriving DecidableEq, Repr

/-- External-effect outcomes for one `generateVideo` run of
`src/unnamed/part_000`.  `bgRequested` is `backgroundUrl` being non-empty;
`bgLocal` is `backgroundUrl.startsWith('/backgrounds/')`; `bgFetchOk` is
whether the `yt-dlp` download plus ffmpeg rescale succeed. -/
structure Env00 where
  bgRequested : Bool
  bgLocal : Bool
  bgFetchOk : Bool
  captureOk : Bool
  encodeOk : Bool
  closeOk : Bool
deriving DecidableEq, Repr

/-- `ensureBackgroundVideo`: returns `null` when no background is requested,
the local path unchanged for a `/backgrounds/` reference, and otherwise
downloads and rescales — which can reject. -/
def ensureBackgroundVideo (e : Env00) : Except String (Option BgSource) :=
  if e.bgRequested = false then Except.ok none
  else if e.bgLocal then Except.ok (some BgSource.library)
  else if e.bgFetchOk then Except.ok (some BgSource.fetched)
  else Except.error ("ytdlp or scale failed")

/-- The background actually used by the job: the call site wraps the
resolver in `.catch(() => null)`, so any resolution failure degrades to
"no background". -/
def bgVideo (e : Env00) : Option BgSource :=
  match ensureBackgroundVideo e with
  | Except.ok v => v
  | Except.error _ => none

/-- Observable outcome of one `generateVideo` run of `src/unnamed/part_000`:
the status assignments in order, whether the encode command was built with
the background `overlay` complex filter, and whether `job.outputFile` was
set. -/
structure Result00 where
  trace : List JobStatus
  usedOverlay : Bool
  outputSet : Bool
deriving DecidableEq, Repr

/-- One `generateVideo` run of `src/unnamed/part_000`, sequenced exactly as
in the source: status `rendering` is set first, the background is resolved
concurrently (failures caught to `null`), the capture loop runs, then the
encode command is built — with the overlay inputs exactly when `bgVideo`
is non-null — and on encoder success the job is marked `done`; any
rejection reaches the submission-site `.catch`, which sets `error`. -/
def generateVideo00 (e : Env00) : Result00 :=
  let bg := bgVideo e
  if e.captureOk then
    if e.encodeOk then
      { trace := [JobStatus.queued, JobStatus.rendering, JobStatus.done] ++
          (if e.closeOk then [] else [JobStatus.error]),
        usedOverlay := bg.isSome,
        outputSet := true }
    else
      { trace := [JobStatus.queued, JobStatus.rendering, JobStatus.error],
        usedOverlay := bg.isSome,
        outputSet := false }
  else
    { trace := [JobStatus.queued, JobStatus.rendering, JobStatus.error],
      usedOverlay := false,
      outputSet := false }

end Server00

/-- C4: a failure of background resolution (download or scale/crop error)
never by itself changes the job's status trace — the trace is a function of
the other effect outcomes only — and on a run where everything else
succeeds but the background fetch fails, the job is rendered and encoded
with no background overlay and still ends `done` with an output file. -/
theorem Server00.background_failure_nonfatal
    (e : Server00.Env00) (b₁ b₂ : Bool) :
    (generateVideo00 { e with bgFetchOk := b₁ }).trace
        = (generateVideo00 { e with bgFetchOk := b₂ }).trace
      ∧ (generateVideo00 { e with
            bgLocal := false, bgFetchOk := false,
            captureOk := true, encodeOk := true, closeOk := true }).trace
          = [JobStatus.queued, JobStatus.rendering, JobStatus.done]
      ∧ (generateVideo00 { e with
            bgLocal := false, bgFetchOk := false,
            captureOk := true, encodeOk := true, closeOk := true }).usedOverlay
          = false
      ∧ (generateVideo00 { e with
            bgLocal := false, bgFetchOk := false,
            captureOk := true, encodeOk := true, closeOk := true }).outputSet
          = true := by
  obtain ⟨r, l, f, c, en, cl⟩ := e
  cases r <;> cases l <;> cases f <;> cases c <;> cases en <;> cases cl <;>
    cases b₁ <;> cases b₂ <;>
      simp [generateVideo00, bgVideo, ensureBackgroundVideo]

/-! ## Progress reporting (`src/server.js`, `generateVideo`) -/

namespace Server

/-- The values assigned to `job.progress` by the frame-capture loop:
`Math.round(((i + 1) / totalFrames) * 80)` for `i = 0 .. totalFrames-1`.
(`Math.round x = ⌊x + 1/2⌋` for JavaScript numbers, matching Mathlib's
`round` on `ℚ`.) -/
def captureProgressList (n : ℕ) : List ℤ :=
  (List.range n).map (fun (i : ℕ) => round ((((i : ℚ) + 1) / (n : ℚ)) * 80))

/-- The mapping of one ffmpeg progress event: `85 + min(10, round(p.percent / 10))`. -/
def encoderMapped (p : ℚ) : ℤ :=
  85 + min 10 (round (p / 10))

/-- The values assigned by the encoder's `progress` handler.  Events with a
falsy `p.percent` (absent or zero) are skipped by the `if (p.percent)` guard. -/
def encoderProgressList (percents : List ℚ) : List ℤ :=
  (percents.filter (fun p => decide (p ≠ 0))).map encoderMapped

/-- All values taken by `job.progress`, in assignment order, on a run whose
capture loop completes: `0` at job creation, the capture-loop values, the
fixed `85` written before encoding starts, the mapped encoder events, and —
only when the encoder resolves successfully — the final `100`. -/
def progressTrace (n : ℕ) (percents : List ℚ) (encodeOk : Bool) : List ℤ :=
  0 :: (captureProgressList n ++
    85 :: (encoderProgressList percents ++ if encodeOk then [100] else []))

end Server

/-- `round` on `ℚ` is monotone. -/
theorem Server.round_rat_mono {x y : ℚ} (h : x ≤ y) : round x ≤ round y := by
  rw [round_eq, round_eq]
  exact Int.floor_le_floor (by linarith)

/-- Every capture-loop progress value lies in `[0, 80]`. -/
theorem Server.captureProgress_bounds (n : ℕ) :
    ∀ x ∈ captureProgressList n, 0 ≤ x ∧ x ≤ 80 := by
  intro x hx
  rw [captureProgressList, List.mem_map] at hx
  obtain ⟨i, hi, rfl⟩ := hx
  rw [List.mem_range] at hi
  have hn : (0 : ℚ) < (n : ℚ) := by exact_mod_cast Nat.lt_of_le_of_lt (Nat.zero_le i) hi
  constructor
  · have h0 : (0 : ℚ) ≤ (((i : ℚ) + 1) / (n : ℚ)) * 80 := by positivity
    have := Server.round_rat_mono h0
    simpa using this
  · have h1 : (((i : ℚ) + 1) / (n : ℚ)) * 80 ≤ 80 := by
      have hle : ((i : ℚ) + 1) ≤ (n : ℚ) := by exact_mod_cast hi
      have : ((i : ℚ) + 1) / (n : ℚ) ≤ 1 := by
        rw [div_le_one hn]; exact hle
      nlinarith
    have := Server.round_rat_mono h1
    simpa using this

/-- Every mapped encoder event for a non-negative percent lies in `[85, 95]`. -/
theorem Server.encoderMapped_bounds {p : ℚ} (hp : 0 ≤ p) :
    85 ≤ encoderMapped p ∧ encoderMapped p ≤ 95 := by
  unfold encoderMapped
  constructor
  · have h0 : (0 : ℤ) ≤ round (p / 10) := by
      have := Server.round_rat_mono (show (0 : ℚ) ≤ p / 10 by positivity)
      simpa using this
    have : (0 : ℤ) ≤ min 10 (round (p / 10)) := le_min (by norm_num) h0
    omega
  · have : min 10 (round (p / 10)) ≤ 10 := min_le_left _ _
    omega

/-- Members of the mapped encoder-event list all lie in `[85, 95]` when the
reported percents are non-negative. -/
theorem Server.encoderProgressList_bounds (percents : List ℚ)
    (hnn : ∀ p ∈ percents, 0 ≤ p) :
    ∀ x ∈ encoderProgressList percents, 85 ≤ x ∧ x ≤ 95 := by
  intro x hx
  rw [encoderProgressList, List.mem_map] at hx
  obtain ⟨p, hp, rfl⟩ := hx
  exact Server.encoderMapped_bounds (hnn p (List.mem_of_mem_filter hp))

/-- The capture-loop progress values are sorted (non-decreasing). -/
theorem Server.captureProgress_sorted (n : ℕ) :
    (captureProgressList n).Sorted (· ≤ ·) := by
  unfold captureProgressList
  refine List.Pairwise.map _ (fun a b hab => ?_) (List.pairwise_lt_range n)
  refine Server.round_rat_mono ?_
  rcases Nat.eq_zero_or_pos n with hn | hn
  · subst hn; simp
  · have hnq : (0 : ℚ) < (n : ℚ) := by exact_mod_cast hn
    have hab' : ((a : ℚ) + 1) ≤ ((b : ℚ) + 1) := by
      have : (a : ℚ) ≤ (b : ℚ) := by exact_mod_cast Nat.le_of_lt hab
      linarith
    have := (div_le_div_right hnq).mpr hab'
    nlinarith

/-- The mapped encoder-event values are sorted when the reported percent
sequence is. -/
theorem Server.encoderProgress_sorted (percents : List ℚ)
    (hsorted : percents.Sorted (· ≤ ·)) :
    (encoderProgressList percents).Sorted (· ≤ ·) := by
  unfold encoderProgressList
  refine List.Pairwise.map _ (fun a b hab => ?_) (hsorted.filter _)
  unfold encoderMapped
  have : round (a / 10) ≤ round (b / 10) :=
    Server.round_rat_mono ((div_le_div_right (by norm_num)).mpr hab)
  have := min_le_min (le_refl (10 : ℤ)) this
  omega

/-- C3: on any run of `src/server.js` whose capture loop completes, and for
any non-negative, non-decreasing sequence of encoder percent events, the
job's progress values stay within `[0, 100]` and are monotonically
non-decreasing in assignment order; every mapped encoder event lies in the
`85–95` sub-range; and the value `100` appears in the trace exactly when
the encoder signalled success. -/
theorem Server.progress_spec (n : ℕ) (percents : List ℚ) (encodeOk : Bool)
    (hsorted : percents.Sorted (· ≤ ·)) (hnn : ∀ p ∈ percents, 0 ≤ p) :
    (progressTrace n percents encodeOk).Sorted (· ≤ ·)
      ∧ (∀ x ∈ progressTrace n percents encodeOk, 0 ≤ x ∧ x ≤ 100)
      ∧ (∀ p ∈ percents, 85 ≤ encoderMapped p ∧ encoderMapped p ≤ 95)
      ∧ (100 ∈ progressTrace n percents encodeOk ↔ encodeOk = true) := by
  have hcapB := Server.captureProgress_bounds n
  have hencB := Server.encoderProgressList_bounds percents hnn
  have htailB : ∀ x ∈ (if encodeOk then [(100 : ℤ)] else []), x = 100 := by
    cases encodeOk <;> simp
  have hmem : ∀ x ∈ progressTrace n percents encodeOk, 0 ≤ x ∧ x ≤ 100 := by
    intro x hx
    rw [progressTrace, List.mem_cons, List.mem_append, List.mem_cons,
      List.mem_append] at hx
    rcases hx with rfl | hx | rfl | hx | hx
    · omega
    · have := hcapB x hx; omega
    · omega
    · have := hencB x hx; omega
    · have := htailB x hx; omega
  refine ⟨?_, hmem, fun p hp => Server.encoderMapped_bounds (hnn p hp), ?_⟩
  · rw [progressTrace, List.sorted_cons]
    constructor
    · intro b hb
      rw [List.mem_append, List.mem_cons, List.mem_append] at hb
      rcases hb with hb | rfl | hb | hb
      · exact (hcapB b hb).1
      · omega
      · have := hencB b hb; omega
      · have := htailB b hb; omega
    · refine List.pairwise_append.mpr
        ⟨Server.captureProgress_sorted n, ?_, ?_⟩
      · rw [List.pairwise_cons]
        constructor
        · intro b hb
          rw [List.mem_append] at hb
          rcases hb with hb | hb
          · have := hencB b hb; omega
          · have := htailB b hb; omega
        · refine List.pairwise_append.mpr
            ⟨Server.encoderProgress_sorted percents hsorted, ?_, ?_⟩
          · cases encodeOk <;> simp
          · intro x hx y hy
            have := hencB x hx
            have := htailB y hy
            omega
      · intro x hx y hy
        have hx80 := hcapB x hx
        rw [List.mem_cons, List.mem_append] at hy
        rcases hy with rfl | hy | hy
        · omega
        · have := hencB y hy; omega
        · have := htailB y hy; omega
  · constructor
    · intro h
      rw [progressTrace, List.mem_cons, List.mem_append, List.mem_cons,
        List.mem_append] at h
      rcases h with h | h | h | h | h
      · omega
      · have := hcapB _ h; omega
      · omega
      · have := hencB _ h; omega
      · cases encodeOk with
        | true => rfl
        | false => simp at h
    · intro h
      subst h
      rw [progressTrace]
      simp

/-- Witness for C3 at `n = 3` capture frames, encoder events
`[20, 50, 100]`, successful encode. -/
theorem Server.progress_spec_witness :
    (progressTrace 3 [20, 50, 100] true).Sorted (· ≤ ·)
      ∧ (∀ x ∈ progressTrace 3 [20, 50, 100] true, 0 ≤ x ∧ x ≤ 100)
      ∧ (∀ p ∈ [(20 : ℚ), 50, 100], 85 ≤ encoderMapped p ∧ encoderMapped p ≤ 95)
      ∧ (100 ∈ progressTrace 3 [20, 50, 100] true ↔ true = true) :=
  Server.progress_spec 3 [20, 50, 100] true
    (by norm_num [List.Sorted, List.pairwise_cons])
    (by norm_num)

/-! ## Job registry and submission (`src/server.js`) -/

namespace Server

/-- The fields of one in-memory job record (`const job = { id, status,
progress, message, outputFile }`). -/
structure Job where
  status : JobStatus
  progress : ℤ
  message : String
  outputFile : Option String
deriving DecidableEq, Repr

/-- The job record created by `POST /api/generate`. -/
def initialJob : Job :=
  { status := JobStatus.queued, progress := 0, message := "Queued",
    outputFile := none }

/-- The process-wide `jobs` map, modelled as an association list whose
lookup returns the most recently inserted binding for a key (matching
`Map.set`/`Map.get`). -/
abbrev Registry := List (String × Job)

/-- `jobs.get(id)`. -/
def lookupJob (reg : Registry) (id : String) : Option Job :=
  (List.find? (fun e => e.1 = id) reg).map (fun e => e.2)

/-- The recognized generation parameters of the request body (remaining
fields — title, episode, messages, dimensions — do not affect
registration). -/
structure GenRequest where
  durationSec : ℚ
  fps : ℚ
deriving DecidableEq, Repr

/-- The HTTP response of `POST /api/generate`.  The source only ever
responds `res.json({ jobId })`; the `validationError` variant exists so
that the specification's claimed rejection is statable. -/
inductive SubmitResponse
  | jobAccepted (jobId : String)
  | validationError (message : String)
deriving DecidableEq, Repr

/-- Whether a response is a validation rejection. -/
def SubmitResponse.isValidationError : SubmitResponse → Bool
  | .validationError _ => true
  | .jobAccepted _ => false

/-- `POST /api/generate`: unconditionally creates the job record, inserts
it into the `jobs` map, fires `generateVideo` (the `Bool` component:
generation was started), and responds with the job id.  No field of the
request is inspected before scheduling. -/
def handleGenerate (reg : Registry) (id : String) (_req : GenRequest) :
    Registry × SubmitResponse × Bool :=
  ((id, initialJob) :: reg, SubmitResponse.jobAccepted id, true)

/-- Every mutation the server ever performs on the `jobs` map or on a job
record it holds: a new submission (`jobs.set`), an in-place update of one
job's fields by its own `generateVideo` run or its `.catch`, or a read-only
progress poll. -/
inductive ServerOp
  | submit (id : String) (req : GenRequest)
  | jobUpdate (id : String) (f : Job → Job)
  | progressQuery (id : String)

/-- In-place mutation of the job object stored under `id` (the map's keys
are untouched). -/
def updateJob (reg : Registry) (id : String) (f : Job → Job) : Registry :=
  reg.map (fun e => if e.1 = id then (e.1, f e.2) else e)

/-- Effect of one operation on the registry.  No operation deletes a key:
the source contains no `jobs.delete` call. -/
def applyOp (reg : Registry) : ServerOp → Registry
  | ServerOp.submit id req => (handleGenerate reg id req).1
  | ServerOp.jobUpdate id f => updateJob reg id f
  | ServerOp.progressQuery _ => reg

/-- Effect of a sequence of operations. -/
def applyOps (reg : Registry) (ops : List ServerOp) : Registry :=
  ops.foldl applyOp reg

end Server

/-- A key is present exactly when some entry carries it. -/
theorem Server.lookup_isSome_iff (reg : Server.Registry) (id : String) :
    (lookupJob reg id).isSome = true ↔ ∃ e ∈ reg, e.1 = id := by
  simp [lookupJob, List.find?_isSome]

/-- A present key stays present under any single server operation. -/
theorem Server.lookup_isSome_applyOp (reg : Server.Registry) (id : String)
    (op : Server.ServerOp) (h : (lookupJob reg id).isSome = true) :
    (lookupJob (applyOp reg op) id).isSome = true := by
  rw [Server.lookup_isSome_iff] at h
  obtain ⟨e, he, he1⟩ := h
  cases op with
  | submit id' req =>
    rw [Server.lookup_isSome_iff]
    exact ⟨e, List.mem_cons_of_mem _ he, he1⟩
  | jobUpdate id' f =>
    rw [Server.lookup_isSome_iff]
    refine ⟨if e.1 = id' then (e.1, f e.2) else e, ?_, ?_⟩
    · simp only [applyOp, updateJob]
      exact List.mem_map_of_mem _ he
    · by_cases h' : e.1 = id'
      · rw [if_pos h']; exact he1
      · rw [if_neg h']; exact he1
  | progressQuery _ =>
    rw [Server.lookup_isSome_iff]
    exact ⟨e, he, he1⟩

/-- A present key stays present under any sequence of server operations. -/
theorem Server.lookup_isSome_applyOps (ops : List Server.ServerOp) :
    ∀ (reg : Server.Registry) (id : String),
      (lookupJob reg id).isSome = true →
      (lookupJob (applyOps reg ops) id).isSome = true := by
  induction ops with
  | nil => intro reg id h; exact h
  | cons op rest ih =>
    intro reg id h
    rw [applyOps, List.foldl_cons]
    exact ih _ _ (Server.lookup_isSome_applyOp reg id op h)

/-- C10: an accepted generation request inserts the job record into the
in-memory registry before the job identifier is returned; registry entries
are never removed by any subsequent server operation; hence a status query
for any identifier previously returned by submission never yields the
not-found condition within the same process lifetime. -/
theorem Server.registry_never_forgets (reg : Server.Registry) (id : String)
    (req : Server.GenRequest) (ops : List Server.ServerOp) :
    (handleGenerate reg id req).2.1 = Server.SubmitResponse.jobAccepted id
      ∧ lookupJob (handleGenerate reg id req).1 id = some Server.initialJob
      ∧ (lookupJob (applyOps (handleGenerate reg id req).1 ops) id).isSome
          = true := by
  have hfound : lookupJob (handleGenerate reg id req).1 id
      = some Server.initialJob := by
    rw [handleGenerate, lookupJob]
    rw [List.find?_cons_of_pos _ (by simp)]
    rfl
  refine ⟨rfl, hfound, ?_⟩
  refine Server.lookup_isSome_applyOps ops _ id ?_
  rw [hfound]
  rfl

/-- C6 (counterexample): a submission with `durationSec = -1 ≤ 0` is not
rejected: `POST /api/generate` contains no validation branch, so the
request is accepted (`jobId` response, not a validation error), the job is
registered as `queued`, and `generateVideo` is fired — the configuration
does reach the rendering pipeline. -/
theorem Server.no_validation_cex :
    ({ durationSec := -1, fps := 24 } : Server.GenRequest).durationSec ≤ 0
      ∧ (handleGenerate [] "j1" { durationSec := -1, fps := 24 }).2.1
          = Server.SubmitResponse.jobAccepted "j1"
      ∧ Server.SubmitResponse.isValidationError
          (handleGenerate [] "j1" { durationSec := -1, fps := 24 }).2.1 = false
      ∧ lookupJob (handleGenerate [] "j1" { durationSec := -1, fps := 24 }).1
          "j1" = some Server.initialJob
      ∧ (handleGenerate [] "j1" { durationSec := -1, fps := 24 }).2.2 = true := by
  refine ⟨by norm_num, rfl, rfl, ?_, rfl⟩
  rw [handleGenerate, lookupJob]
  rw [List.find?_cons_of_pos _ (by simp)]
  rfl

/-- C6 (amended): `POST /api/generate` performs no validation at all —
every submission, including one with `durationSec ≤ 0` or `fps ≤ 0`, is
accepted, registered and scheduled, and the job id is returned.  A
non-positive configuration is not rejected at submission; instead (for a
non-negative `fps`) the scheduled capture loop computes
`totalFrames = ⌊durationSec·fps⌋ ≤ 0` and so captures no frames, the
failure surfacing only later, at encode time. -/
theorem Server.no_validation_amended (reg : Server.Registry) (id : String)
    (req : Server.GenRequest)
    (hdur : req.durationSec ≤ 0) (hfps : 0 ≤ req.fps) :
    Server.SubmitResponse.isValidationError
        (handleGenerate reg id req).2.1 = false
      ∧ (handleGenerate reg id req).2.1 = Server.SubmitResponse.jobAccepted id
      ∧ (lookupJob (handleGenerate reg id req).1 id).isSome = true
      ∧ (handleGenerate reg id req).2.2 = true
      ∧ captureTimestamps req.durationSec req.fps 1 = [] := by
  refine ⟨rfl, rfl, ?_, rfl, ?_⟩
  · rw [handleGenerate, lookupJob]
    rw [List.find?_cons_of_pos _ (by simp)]
    rfl
  · have hprod : req.durationSec * req.fps ≤ 0 :=
      mul_nonpos_of_nonpos_of_nonneg hdur hfps
    have hfloor : ⌊req.durationSec * req.fps / ((1 : ℕ) : ℚ)⌋ ≤ 0 := by
      refine Int.floor_nonpos ?_
      rw [Nat.cast_one, div_one]
      exact hprod
    rw [captureTimestamps, totalFrames]
    rw [Int.toNat_of_nonpos hfloor]
    rfl

/-- Witness for the amended C6 theorem at `durationSec = -1`, `fps = 24`. -/
theorem Server.no_validation_amended_witness :
    Server.SubmitResponse.isValidationError
        (handleGenerate [] "a" { durationSec := -1, fps := 24 }).2.1 = false
      ∧ (handleGenerate [] "a" { durationSec := -1, fps := 24 }).2.1
          = Server.SubmitResponse.jobAccepted "a"
      ∧ (lookupJob (handleGenerate [] "a" { durationSec := -1, fps := 24 }).1
          "a").isSome = true
      ∧ (handleGenerate [] "a" { durationSec := -1, fps := 24 }).2.2 = true
      ∧ captureTimestamps
          ({ durationSec := -1, fps := 24 } : Server.GenRequest).durationSec
          ({ durationSec := -1, fps := 24 } : Server.GenRequest).fps 1 = [] :=
  Server.no_validation_amended [] "a" { durationSec := -1, fps := 24 }
    (by norm_num) (by norm_num)

/-! ## Visible-message tracking (`src/unnamed/part_001`, `generateFrames`) -/

namespace Renderer01

/-- One entry of the `visibleMessages` array: the spread dialogue object
(recorded here as the original list element), the `index` annotation, and
the `animationProgress` annotation. -/
structure VisMsg (α : Type) where
  msg : Option α
  index : ℕ
  animationProgress : ℚ

/-- The loop state threaded through `generateFrames`:
`currentMessageIndex` and `visibleMessages`. -/
structure VisState (α : Type) where
  idx : ℕ
  visible : List (VisMsg α)

/-- `framesPerMessage = Math.floor(this.frameRate * 2)`. -/
def framesPerMessage (frameRate : ℕ) : ℕ := frameRate * 2

/-- The body of one iteration of the frame loop of `generateFrames`
(frame ordinal `f`): when `f > 0 && f % framesPerMessage === 0 &&
currentMessageIndex < dialogues.length`, push
`{ ...dialogues[currentMessageIndex], animationProgress: 0,
index: currentMessageIndex }` and advance the index; then bump every
visible message's `animationProgress` by `0.1`, clamped at `1`. -/
def stepFrame (fpm : ℕ) (dialogues : List α) (s : VisState α) (f : ℕ) :
    VisState α :=
  let s' :=
    if 0 < f ∧ f % fpm = 0 ∧ s.idx < dialogues.length then
      { idx := s.idx + 1,
        visible := s.visible ++
          [{ msg := dialogues[s.idx]?, index := s.idx,
             animationProgress := 0 }] }
    else s
  { s' with
      visible := s'.visible.map (fun m =>
        { m with animationProgress := min 1 (m.animationProgress + 1/10) }) }

/-- The loop state after processing frames `0 .. n-1`, starting from
`currentMessageIndex = 0`, `visibleMessages = []`. -/
def runFrames (fpm : ℕ) (dialogues : List α) (n : ℕ) : VisState α :=
  (List.range n).foldl (stepFrame fpm dialogues) ⟨0, []⟩

/-- The visible messages at sample `n` (after the loop body for frame `n`
has run), as recorded dialogue entries. -/
def visibleAt (fpm : ℕ) (dialogues : List α) (n : ℕ) : List (Option α) :=
  (runFrames fpm dialogues n).visible.map (fun m => m.msg)

end Renderer01

/-- Loop invariant: the visible list is exactly the annotated prefix
`dialogues.take idx` of the input, in input order, and `idx ≤ length`. -/
theorem Renderer01.runFrames_invariant (fpm : ℕ) (dialogues : List α) :
    ∀ n : ℕ,
      (runFrames fpm dialogues n).visible.map (fun m => m.msg)
          = (dialogues.take (runFrames fpm dialogues n).idx).map some
        ∧ (runFrames fpm dialogues n).idx ≤ dialogues.length := by
  intro n
  induction n with
  | zero => exact ⟨rfl, Nat.zero_le _⟩
  | succ k ih =>
    obtain ⟨ihvis, ihlen⟩ := ih
    have hrun : runFrames fpm dialogues (k + 1)
        = stepFrame fpm dialogues (runFrames fpm dialogues k) k := by
      rw [runFrames, List.range_succ, List.foldl_append, List.foldl_cons,
        List.foldl_nil]
      rfl
    rw [hrun, stepFrame]
    by_cases hc : 0 < k ∧ k % fpm = 0 ∧
        (runFrames fpm dialogues k).idx < dialogues.length
    · rw [if_pos hc]
      obtain ⟨-, -, hlt⟩ := hc
      constructor
      · dsimp only
        rw [List.map_map, List.map_append]
        have hcomp : ∀ (l : List (VisMsg α)),
            l.map ((fun m => m.msg) ∘ (fun m =>
              { m with animationProgress := min 1 (m.animationProgress + 1/10) }))
              = l.map (fun m => m.msg) := by
          intro l
          exact List.map_congr_left (fun m _ => rfl)
        rw [hcomp, hcomp, ihvis]
        have htake : dialogues.take ((runFrames fpm dialogues k).idx + 1)
            = dialogues.take (runFrames fpm dialogues k).idx
                ++ [dialogues[(runFrames fpm dialogues k).idx]] := by
          rw [List.take_succ]
          rw [List.getElem?_eq_getElem hlt]
          rfl
        rw [htake, List.map_append]
        rw [List.getElem?_eq_getElem hlt]
        rfl
      · exact hlt
    · rw [if_neg hc]
      constructor
      · dsimp only
        rw [List.map_map]
        have hcomp : ∀ (l : List (VisMsg α)),
            l.map ((fun m => m.msg) ∘ (fun m =>
              { m with animationProgress := min 1 (m.animationProgress + 1/10) }))
              = l.map (fun m => m.msg) := by
          intro l
          exact List.map_congr_left (fun m _ => rfl)
        rw [hcomp, ihvis]
      · exact ihlen

/-- The message index is non-decreasing across frames. -/
theorem Renderer01.runFrames_idx_mono (fpm : ℕ) (dialogues : List α)
    {m n : ℕ} (h : m ≤ n) :
    (runFrames fpm dialogues m).idx ≤ (runFrames fpm dialogues n).idx := by
  induction n with
  | zero =>
    have : m = 0 := Nat.le_zero.mp h
    subst this
    exact Nat.le_refl _
  | succ k ih =>
    rcases Nat.lt_or_ge m (k + 1) with hm | hm
    · have step : (runFrames fpm dialogues k).idx
          ≤ (runFrames fpm dialogues (k + 1)).idx := by
        have hrun : runFrames fpm dialogues (k + 1)
            = stepFrame fpm dialogues (runFrames fpm dialogues k) k := by
          rw [runFrames, List.range_succ, List.foldl_append, List.foldl_cons,
            List.foldl_nil]
          rfl
        rw [hrun, stepFrame]
        by_cases hc : 0 < k ∧ k % fpm = 0 ∧
            (runFrames fpm dialogues k).idx < dialogues.length
        · rw [if_pos hc]; exact Nat.le_succ _
        · rw [if_neg hc]
      exact Nat.le_trans (ih (Nat.lt_succ_iff.mp hm)) step
    · have : m = k + 1 := Nat.le_antisymm h hm
      subst this
      exact Nat.le_refl _

/-- C7: within one job of `src/unnamed/part_001`, the visible-message list
at any sample is a stable-ordered prefix of the full input message list:
the visible list at an earlier sample is a prefix of the visible list at
any later sample (so a message never disappears once shown), and every
visible list is a prefix of the input dialogues in input order. -/
theorem Renderer01.visible_prefix_monotone (dialogues : List α)
    (frameRate k k' : ℕ) (h : k ≤ k') :
    visibleAt (framesPerMessage frameRate) dialogues (k + 1)
        <+: visibleAt (framesPerMessage frameRate) dialogues (k' + 1)
      ∧ visibleAt (framesPerMessage frameRate) dialogues (k' + 1)
          <+: dialogues.map some := by
  set fpm := framesPerMessage frameRate with hfpm
  have inv := Renderer01.runFrames_invariant fpm dialogues
  have hvk : visibleAt fpm dialogues (k + 1)
      = (dialogues.take (runFrames fpm dialogues (k + 1)).idx).map some :=
    (inv (k + 1)).1
  have hvk' : visibleAt fpm dialogues (k' + 1)
      = (dialogues.take (runFrames fpm dialogues (k' + 1)).idx).map some :=
    (inv (k' + 1)).1
  have hidx : (runFrames fpm dialogues (k + 1)).idx
      ≤ (runFrames fpm dialogues (k' + 1)).idx :=
    Renderer01.runFrames_idx_mono fpm dialogues (Nat.add_le_add_right h 1)
  have hmap : ∀ {l₁ l₂ : List α}, l₁ <+: l₂ →
      l₁.map (some : α → Option α) <+: l₂.map some := by
    intro l₁ l₂ hp
    obtain ⟨t, ht⟩ := hp
    exact ⟨t.map some, by rw [← List.map_append, ht]⟩
  constructor
  · rw [hvk, hvk']
    refine hmap ?_
    have := List.take_prefix (runFrames fpm dialogues (k + 1)).idx
      (dialogues.take (runFrames fpm dialogues (k' + 1)).idx)
    rwa [List.take_take, Nat.min_eq_left hidx] at this
  · rw [hvk']
    exact hmap ( List.take_prefix _ _)

/-- Witness for C7 at `dialogues = [10, 20]`, `frameRate = 1`, samples
`k = 0 ≤ k' = 3`. -/
theorem Renderer01.visible_prefix_monotone_witness :
    visibleAt (framesPerMessage 1) [10, 20] (0 + 1)
        <+: visibleAt (framesPerMessage 1) [10, 20] (3 + 1)
      ∧ visibleAt (framesPerMessage 1) [10, 20] (3 + 1)
          <+: ([10, 20] : List ℕ).map some :=
  Renderer01.visible_prefix_monotone [10, 20] 1 0 3 (by norm_num)

/-! ## Frame generation (`src/video-generator-app/src/services/videoService.js`) -/

namespace VideoSvc

/-- One dialogue object consumed by `videoService.js` (`speaker`,
`message`, optional `image`). -/
structure Dialogue where
  speaker : String
  message : String
  image : Option String
deriving DecidableEq, Repr

/-- The renderer-relevant content of one produced frame: the dialogues
drawn by `drawChatInterface` and whether `drawDialogueImage` ran. -/
structure FrameDesc where
  chat : List Dialogue
  progress : ℚ
  imageDrawn : Bool
deriving DecidableEq, Repr

/-- `createFrame(currentDialogue, allDialogues, backgroundType, progress,
frameNumber)`.  After drawing the background and the chat interface it
evaluates `currentDialogue.image`; when `currentDialogue` is `undefined`
(as JavaScript array indexing yields out of range) this dereference throws
a `TypeError`, modelled as `Except.error`. -/
def createFrame (currentDialogue : Option Dialogue)
    (allDialogues : List Dialogue) (progress : ℚ) :
    Except String FrameDesc :=
  match currentDialogue with
  | none =>
      Except.error
        ("TypeError: Cannot read properties of undefined (reading image)")
  | some d =>
      Except.ok
        { chat := allDialogues, progress := progress,
          imageDrawn := d.image.isSome && decide ((3 : ℚ)/10 < progress) }

/-- `generateFrames(dialogues, backgroundType, tempDir)`: for each dialogue
`i`, `framesPerDialogue = frameRate * 2` frames over the prefix
`dialogues.slice(0, i + 1)`; then `frameRate` closing frames rendered from
`dialogues[dialogues.length - 1]` — which is `undefined` when the dialogue
list is empty. -/
def generateFrames (frameRate : ℕ) (dialogues : List Dialogue) :
    Except String (List FrameDesc) := do
  let framesPerDialogue := frameRate * 2
  let main ← (List.range dialogues.length).mapM (fun i =>
    (List.range framesPerDialogue).mapM (fun f =>
      createFrame dialogues[i]? (dialogues.take (i + 1))
        ((f : ℚ) / (framesPerDialogue : ℚ))))
  let closing ← (List.range frameRate).mapM (fun _ =>
    createFrame dialogues.getLast? dialogues 1)
  pure (main.flatten ++ closing)

end VideoSvc

/-- C5 (code bug): on an empty message list, `generateFrames` of
`videoService.js` does not complete — the closing-hold block reads
`dialogues[dialogues.length - 1]`, i.e. `undefined`, and `createFrame`
then throws a `TypeError` dereferencing `currentDialogue.image`, so the
job fails instead of producing an empty-timeline video. -/
theorem VideoSvc.generateFrames_empty_throws :
    generateFrames 30 []
      = Except.error
          ("TypeError: Cannot read properties of undefined (reading image)") := by
  rfl

/-! ## Greedy word-wrap (`wrapText` of both canvas renderers) -/

namespace WrapText

/-- The loop of `wrapText(ctx, text, maxWidth)`, over the word list
produced by `text.split(' ')`, threading `currentLine` (initially `''`):
`testLine = currentLine + (currentLine ? ' ' : '') + word`; when
`ctx.measureText(testLine).width > maxWidth && currentLine` the current
line is pushed and the overflowing word starts the next line, otherwise
the word is accumulated; a non-empty final line is pushed at the end.
`measure` abstracts `ctx.measureText(·).width`. -/
def wrapWords (measure : String → ℚ) (maxWidth : ℚ) :
    List String → String → List String
  | [], currentLine => if currentLine = "" then [] else [currentLine]
  | word :: ws, currentLine =>
      let testLine := currentLine ++ (if currentLine = "" then "" else " ") ++ word
      if measure testLine > maxWidth ∧ currentLine ≠ "" then
        currentLine :: wrapWords measure maxWidth ws word
      else
        wrapWords measure maxWidth ws testLine

/-- `text.split(' ')`: cut the character sequence at every space,
keeping empty pieces (as JavaScript's `String.split` does). -/
def splitSpAux : List Char → List Char → List String
  | [], acc => [String.mk acc.reverse]
  | c :: cs, acc =>
      if c = ' ' then String.mk acc.reverse :: splitSpAux cs []
      else splitSpAux cs (c :: acc)

/-- `text.split(' ')`. -/
def splitSp (text : String) : List String :=
  splitSpAux text.data []

/-- `wrapText`: split on single spaces and run the accumulation loop. -/
def wrapText (measure : String → ℚ) (text : String) (maxWidth : ℚ) :
    List String :=
  wrapWords measure maxWidth (splitSp text) ""

/-- Space-joining of a word group, as the loop's string accumulation
builds it. -/
def joinSp : List String → String
  | [] => ""
  | [w] => w
  | w :: b :: t => w ++ " " ++ joinSp (b :: t)

/-- The same loop at the word-group level: the specification's greedy
grouping ("accumulate words while measured width stays under the limit;
on overflow, start a new line with the overflowing word"). -/
def greedyGroups (measure : String → ℚ) (maxWidth : ℚ) :
    List String → List String → List (List String)
  | [], g => if g = [] then [] else [g]
  | w :: ws, g =>
      if measure (joinSp (g ++ [w])) > maxWidth ∧ g ≠ [] then
        g :: greedyGroups measure maxWidth ws [w]
      else
        greedyGroups measure maxWidth ws (g ++ [w])

end WrapText

/-- A string is empty exactly when its length is zero. -/
theorem WrapText.str_length_zero_iff (s : String) : s.length = 0 ↔ s = "" := by
  constructor
  · intro h
    cases s with
    | mk data =>
      have hd : data.length = 0 := h
      have : data = [] := List.length_eq_zero.mp hd
      simp [this]
  · intro h; subst h; rfl

/-- Joining a group that starts with a non-empty word is non-empty. -/
theorem WrapText.joinSp_ne_empty (w : String) (g : List String)
    (hw : w ≠ "") : joinSp (w :: g) ≠ "" := by
  cases g with
  | nil => exact hw
  | cons b t =>
    intro hcontra
    rw [joinSp] at hcontra
    have h0 : (w ++ " " ++ joinSp (b :: t)).length = 0 := by
      rw [hcontra]; rfl
    rw [String.length_append, String.length_append] at h0
    have hw0 : w.length = 0 := by omega
    exact hw ((WrapText.str_length_zero_iff w).mp hw0)

/-- Appending one word to a non-empty group joins with a single space. -/
theorem WrapText.joinSp_append_single (g : List String) (w : String)
    (hg : g ≠ []) : joinSp (g ++ [w]) = joinSp g ++ " " ++ w := by
  induction g with
  | nil => exact absurd rfl hg
  | cons a t ih =>
    cases t with
    | nil => rfl
    | cons b t' =>
      have hstep : joinSp (a :: b :: t' ++ [w])
          = a ++ " " ++ joinSp (b :: (t' ++ [w])) := by
        rw [show a :: b :: t' ++ [w] = a :: b :: (t' ++ [w]) from rfl, joinSp]
      have hih := ih (by simp)
      rw [show (b :: t') ++ [w] = b :: (t' ++ [w]) from rfl] at hih
      rw [hstep, hih, joinSp]
      simp [String.append_assoc]

/-- A group of non-empty words joins to the empty string exactly when the
group is empty. -/
theorem WrapText.joinSp_eq_empty_iff (g : List String)
    (hg : ∀ w ∈ g, w ≠ "") : joinSp g = "" ↔ g = [] := by
  cases g with
  | nil => simp [joinSp]
  | cons a t =>
    constructor
    · intro h
      exact absurd h (WrapText.joinSp_ne_empty a t (hg a (List.mem_cons_self a t)))
    · intro h; exact absurd h (by simp)

/-- The string-accumulating loop of `wrapText` computes exactly the joined
greedy groups, for any current group of non-empty words. -/
theorem WrapText.wrapWords_eq_greedyGroups (measure : String → ℚ)
    (maxWidth : ℚ) :
    ∀ (ws g : List String), (∀ w ∈ ws, w ≠ "") → (∀ w ∈ g, w ≠ "") →
      wrapWords measure maxWidth ws (joinSp g)
        = (greedyGroups measure maxWidth ws g).map joinSp := by
  intro ws
  induction ws with
  | nil =>
    intro g _ hg
    rw [wrapWords, greedyGroups]
    by_cases h : g = []
    · subst h
      simp [joinSp]
    · rw [if_neg ((not_iff_not.mpr (WrapText.joinSp_eq_empty_iff g hg)).mpr h),
        if_neg h]
      rfl
  | cons w rest ih =>
    intro g hws hg
    have hw : w ≠ "" := hws w (List.mem_cons_self w rest)
    have hrest : ∀ x ∈ rest, x ≠ "" := fun x hx => hws x (List.mem_cons_of_mem w hx)
    have htest : joinSp g ++ (if joinSp g = "" then "" else " ") ++ w
        = joinSp (g ++ [w]) := by
      by_cases h : g = []
      · subst h
        rfl
      · rw [if_neg ((not_iff_not.mpr (WrapText.joinSp_eq_empty_iff g hg)).mpr h)]
        rw [WrapText.joinSp_append_single g w h]
    have hne : (joinSp g ≠ "") ↔ (g ≠ []) :=
      not_iff_not.mpr (WrapText.joinSp_eq_empty_iff g hg)
    rw [wrapWords, greedyGroups]
    by_cases hguard : measure (joinSp (g ++ [w])) > maxWidth ∧ g ≠ []
    · rw [if_pos hguard]
      have hguard' : measure (joinSp g ++ (if joinSp g = "" then "" else " ") ++ w)
          > maxWidth ∧ joinSp g ≠ "" := by
        rw [htest, hne]
        exact hguard
      rw [if_pos hguard']
      rw [List.map_cons]
      have : wrapWords measure maxWidth rest w
          = (greedyGroups measure maxWidth rest [w]).map joinSp := by
        have := ih [w] hrest (by
          intro x hx
          rw [List.mem_singleton] at hx
          subst hx
          exact hw)
        rw [show joinSp [w] = w from rfl] at this
        exact this
      rw [this]
    · rw [if_neg hguard]
      have hguard' : ¬ (measure (joinSp g ++ (if joinSp g = "" then "" else " ") ++ w)
          > maxWidth ∧ joinSp g ≠ "") := by
        rw [htest, hne]
        exact hguard
      rw [if_neg hguard']
      have hgw : ∀ x ∈ g ++ [w], x ≠ "" := by
        intro x hx
        rw [List.mem_append, List.mem_singleton] at hx
        rcases hx with hx | rfl
        · exact hg x hx
        · exact hw
      have := ih (g ++ [w]) hrest hgw
      rw [htest, this]

/-- The first emitted group starts with the first word of the current
group: groups only ever grow on the right. -/
theorem WrapText.greedyGroups_head_take (measure : String → ℚ) (maxWidth : ℚ) :
    ∀ (ws g : List String), g ≠ [] →
      (greedyGroups measure maxWidth ws g).head?.map (List.take 1)
        = some (g.take 1) := by
  intro ws
  induction ws with
  | nil =>
    intro g hg
    rw [greedyGroups, if_neg hg]
    rfl
  | cons w rest ih =>
    intro g hg
    rw [greedyGroups]
    by_cases hguard : measure (joinSp (g ++ [w])) > maxWidth ∧ g ≠ []
    · rw [if_pos hguard]
      rfl
    · rw [if_neg hguard]
      have := ih (g ++ [w]) (by simp)
      rw [this]
      obtain ⟨a, t, rfl⟩ := List.exists_cons_of_ne_nil hg
      rw [List.cons_append]
      rfl

/-- Structural properties of the greedy grouping, for any in-progress
group `g` that still satisfies the fit invariant. -/
theorem WrapText.greedyGroups_spec (measure : String → ℚ) (maxWidth : ℚ) :
    ∀ (ws g : List String),
      (2 ≤ g.length → measure (joinSp g) ≤ maxWidth) →
      (greedyGroups measure maxWidth ws g).flatten = g ++ ws
        ∧ (∀ gr ∈ greedyGroups measure maxWidth ws g, gr ≠ [])
        ∧ (∀ gr ∈ greedyGroups measure maxWidth ws g,
            2 ≤ gr.length → measure (joinSp gr) ≤ maxWidth)
        ∧ List.Chain' (fun g₁ g₂ => maxWidth < measure (joinSp (g₁ ++ g₂.take 1)))
            (greedyGroups measure maxWidth ws g) := by
  intro ws
  induction ws with
  | nil =>
    intro g hfit
    rw [greedyGroups]
    by_cases h : g = []
    · subst h
      rw [if_pos rfl]
      exact ⟨rfl, by simp, by simp, List.chain'_nil⟩
    · rw [if_neg h]
      refine ⟨by simp, ?_, ?_, List.chain'_singleton g⟩
      · intro gr hgr
        rw [List.mem_singleton] at hgr
        subst hgr
        exact h
      · intro gr hgr
        rw [List.mem_singleton] at hgr
        subst hgr
        exact hfit
  | cons w rest ih =>
    intro g hfit
    rw [greedyGroups]
    by_cases hguard : measure (joinSp (g ++ [w])) > maxWidth ∧ g ≠ []
    · rw [if_pos hguard]
      have hsub := ih [w] (by simp)
      obtain ⟨hflat, hne, hfit', hchain⟩ := hsub
      refine ⟨?_, ?_, ?_, ?_⟩
      · rw [List.flatten_cons, hflat]
        simp
      · intro gr hgr
        rw [List.mem_cons] at hgr
        rcases hgr with rfl | hgr
        · exact hguard.2
        · exact hne gr hgr
      · intro gr hgr
        rw [List.mem_cons] at hgr
        rcases hgr with rfl | hgr
        · exact hfit
        · exact hfit' gr hgr
      · rw [List.chain'_cons']
        refine ⟨?_, hchain⟩
        intro y hy
        have hhead := WrapText.greedyGroups_head_take measure maxWidth rest [w]
          (by simp)
        rw [List.head?_eq_head (List.ne_nil_of_mem (List.mem_of_mem_head? hy))]
          at hhead
        have hy' : y = (greedyGroups measure maxWidth rest [w]).head
            (List.ne_nil_of_mem (List.mem_of_mem_head? hy)) := by
          have := List.head?_eq_head (List.ne_nil_of_mem (List.mem_of_mem_head? hy))
          rw [this] at hy
          exact (Option.some_inj.mp hy).symm
        rw [Option.map_some'] at hhead
        have htake : y.take 1 = [w] := by
          rw [hy']
          exact Option.some_inj.mp hhead
        rw [htake]
        exact hguard.1
    · rw [if_neg hguard]
      rw [show g ++ w :: rest = (g ++ [w]) ++ rest by simp]
      refine ih (g ++ [w]) ?_
      intro hlen
      by_cases hgnil : g = []
      · subst hgnil
        simp at hlen
      · rw [not_and_or] at hguard
        rcases hguard with hguard | hguard
        · exact le_of_not_lt hguard
        · exact absurd (not_not.mp hguard) hgnil

/-- C8: `wrapText` implements greedy word-wrap.  For any width-measure and
limit, and any text whose space-split words are non-empty, the produced
lines are the space-joins of an ordered partition of the word sequence in
which (i) no word is lost, reordered or duplicated, (ii) no line is empty,
(iii) every line holding at least two words measures within the limit (a
word was only ever accumulated while the measured width stayed within it),
and (iv) extending any line with the first word of the following line
would overflow (the overflowing word is exactly what starts the new
line). -/
theorem WrapText.wrapText_greedy (measure : String → ℚ) (maxWidth : ℚ)
    (text : String) (hwords : ∀ w ∈ splitSp text, w ≠ "") :
    ∃ gs : List (List String),
      wrapText measure text maxWidth = gs.map joinSp
        ∧ gs.flatten = splitSp text
        ∧ (∀ g ∈ gs, g ≠ [])
        ∧ (∀ g ∈ gs, 2 ≤ g.length → measure (joinSp g) ≤ maxWidth)
        ∧ List.Chain' (fun g₁ g₂ => maxWidth < measure (joinSp (g₁ ++ g₂.take 1)))
            gs := by
  refine ⟨greedyGroups measure maxWidth (splitSp text) [], ?_, ?_⟩
  · have := WrapText.wrapWords_eq_greedyGroups measure maxWidth
      (splitSp text) [] hwords (by simp)
    rw [wrapText]
    rw [show joinSp [] = "" from rfl] at this
    exact this
  · have := WrapText.greedyGroups_spec measure maxWidth (splitSp text) []
      (by simp)
    obtain ⟨hflat, hne, hfit, hchain⟩ := this
    exact ⟨by rw [hflat]; rfl, hne, hfit, hchain⟩

/-- Witness for C8: character-count measure, limit 5, text `"aa bb cc"`. -/
theorem WrapText.wrapText_greedy_witness :
    ∃ gs : List (List String),
      wrapText (fun s => (s.length : ℚ)) "aa bb cc" 5 = gs.map joinSp
        ∧ gs.flatten = splitSp ("aa bb cc")
        ∧ (∀ g ∈ gs, g ≠ [])
        ∧ (∀ g ∈ gs, 2 ≤ g.length →
            ((joinSp g).length : ℚ) ≤ 5)
        ∧ List.Chain' (fun g₁ g₂ =>
            (5 : ℚ) < ((joinSp (g₁ ++ g₂.take 1)).length : ℚ)) gs :=
  WrapText.wrapText_greedy (fun s => (s.length : ℚ)) 5 "aa bb cc" (by decide)

/-! ## Frame filenames (`frame_${String(i).padStart(width, '0')}` + extension) -/

namespace FrameNames

/-- Fuelled decimal printer: `natReprAux (n+1) n` is the digit list of
JavaScript's `String(n)`, most significant digit first.  The fuel argument
only makes the recursion structural; `natReprAux_congr` shows the result
is fuel-independent. -/
def natReprAux : ℕ → ℕ → List ℕ
  | 0, _ => []
  | fuel + 1, n => if n < 10 then [n] else natReprAux fuel (n / 10) ++ [n % 10]

/-- The decimal digits of `String(n)`, most significant first. -/
def natRepr (n : ℕ) : List ℕ := natReprAux (n + 1) n

/-- `s.padStart(w, pad)`: left-pad to length `w` (never truncates). -/
def padStart (w : ℕ) (pad : ℕ) (s : List ℕ) : List ℕ :=
  List.replicate (w - s.length) pad ++ s

/-- A string literal as its character-code sequence. -/
def strCodes (s : String) : List ℕ := s.data.map Char.toNat

/-- Digits rendered as character codes (`'0'` = 48). -/
def digitCodes (ds : List ℕ) : List ℕ := ds.map (fun d => 48 + d)

/-- The persisted frame filename
`` `frame_${String(i).padStart(w, '0')}` ++ ext `` as a character-code
sequence (`w = 5`, `ext = ".jpg"` in `src/server.js` and
`src/unnamed/part_000`; `w = 6`, `ext = ".png"` in the canvas renderers). -/
def frameFilename (w : ℕ) (ext : String) (i : ℕ) : List ℕ :=
  strCodes ("frame_") ++ padStart w 48 (digitCodes (natRepr i)) ++ strCodes ext

end FrameNames

/-- The fuelled printer is fuel-independent above its argument. -/
theorem FrameNames.natReprAux_congr :
    ∀ (n f₁ f₂ : ℕ), n < f₁ → n < f₂ →
      natReprAux f₁ n = natReprAux f₂ n := by
  intro n
  induction n using Nat.strong_induction_on with
  | _ n ih =>
    intro f₁ f₂ h₁ h₂
    cases f₁ with
    | zero => omega
    | succ a =>
      cases f₂ with
      | zero => omega
      | succ b =>
        rw [natReprAux, natReprAux]
        by_cases h10 : n < 10
        · rw [if_pos h10, if_pos h10]
        · rw [if_neg h10, if_neg h10]
          have hlt : n / 10 < n := by omega
          rw [ih (n / 10) hlt a (n + 1) (by omega) (by omega)]
          rw [ih (n / 10) hlt b (n + 1) (by omega) (by omega)]

/-- `String(n)` for `n < 10` is the single digit. -/
theorem FrameNames.natRepr_lt10 {n : ℕ} (h : n < 10) : natRepr n = [n] := by
  rw [natRepr, natReprAux, if_pos h]

/-- `String(n)` for `n ≥ 10` is `String(n / 10)` followed by the last digit. -/
theorem FrameNames.natRepr_ge10 {n : ℕ} (h : 10 ≤ n) :
    natRepr n = natRepr (n / 10) ++ [n % 10] := by
  rw [natRepr, natReprAux, if_neg (by omega)]
  rw [FrameNames.natReprAux_congr (n / 10) n (n / 10 + 1) (by omega) (by omega)]
  rfl

/-- A decimal representation has at least one digit. -/
theorem FrameNames.natRepr_len_pos (n : ℕ) : 1 ≤ (natRepr n).length := by
  by_cases h : n < 10
  · rw [FrameNames.natRepr_lt10 h]; rfl
  · rw [FrameNames.natRepr_ge10 (by omega), List.length_append]
    simp

/-- `n < 10^w` has at most `w` digits (for `w ≥ 1`). -/
theorem FrameNames.natRepr_len_le :
    ∀ (w n : ℕ), 1 ≤ w → n < 10 ^ w → (natRepr n).length ≤ w := by
  intro w
  induction w with
  | zero => omega
  | succ v ih =>
    intro n _ hn
    by_cases h10 : n < 10
    · rw [FrameNames.natRepr_lt10 h10]
      simp
    · have hv : 1 ≤ v := by
        by_contra hv
        have : v = 0 := by omega
        subst this
        simp at hn
        omega
      rw [FrameNames.natRepr_ge10 (by omega), List.length_append]
      have hdiv : n / 10 < 10 ^ v := by
        rw [Nat.div_lt_iff_lt_mul (by norm_num)]
        calc n < 10 ^ (v + 1) := hn
        _ = 10 ^ v * 10 := by rw [pow_succ]
      have := ih (n / 10) hv hdiv
      simp only [List.length_singleton]
      omega

/-- Digit count is monotone in the value. -/
theorem FrameNames.natRepr_len_mono :
    ∀ (b a : ℕ), a ≤ b → (natRepr a).length ≤ (natRepr b).length := by
  intro b
  induction b using Nat.strong_induction_on with
  | _ b ih =>
    intro a hab
    by_cases hb : b < 10
    · rw [FrameNames.natRepr_lt10 hb, FrameNames.natRepr_lt10 (by omega)]
      rfl
    · by_cases ha : a < 10
      · rw [FrameNames.natRepr_lt10 ha,
          FrameNames.natRepr_ge10 (show 10 ≤ b by omega), List.length_append]
        have := FrameNames.natRepr_len_pos (b / 10)
        simp only [List.length_singleton]
        omega
      · rw [FrameNames.natRepr_ge10 (show 10 ≤ a by omega),
          FrameNames.natRepr_ge10 (show 10 ≤ b by omega),
          List.length_append, List.length_append]
        have hdiv : a / 10 ≤ b / 10 := Nat.div_le_div_right hab
        have := ih (b / 10) (by omega) (a / 10) hdiv
        simp only [List.length_singleton]
        omega

/-- A number with at least two digits has a non-zero leading digit. -/
theorem FrameNames.natRepr_head_pos :
    ∀ (n : ℕ), 10 ≤ n → ∃ d t, natRepr n = d :: t ∧ 1 ≤ d := by
  intro n
  induction n using Nat.strong_induction_on with
  | _ n ih =>
    intro hn
    rw [FrameNames.natRepr_ge10 hn]
    by_cases h : n / 10 < 10
    · refine ⟨n / 10, [n % 10], ?_, ?_⟩
      · rw [FrameNames.natRepr_lt10 h]
        rfl
      · omega
    · obtain ⟨d, t, hrepr, hd⟩ := ih (n / 10) (by omega) (by omega)
      exact ⟨d, t ++ [n % 10], by rw [hrepr]; rfl, hd⟩

/-- A lexicographic comparison between equal-length lists survives
appending arbitrary suffixes. -/
theorem FrameNames.lex_append_of_length_eq {r : ℕ → ℕ → Prop} :
    ∀ {l₁ l₂ : List ℕ}, List.Lex r l₁ l₂ → l₁.length = l₂.length →
      ∀ (u v : List ℕ), List.Lex r (l₁ ++ u) (l₂ ++ v) := by
  intro l₁ l₂ h
  induction h with
  | nil => intro hlen; simp at hlen
  | @rel a l₁ b l₂ hr =>
    intro _ u v
    exact List.Lex.rel hr
  | @cons a l₁ l₂ h ih =>
    intro hlen u v
    rw [List.length_cons, List.length_cons] at hlen
    exact List.Lex.cons (ih (by omega) u v)

/-- Adding 48 to every element (rendering digits as character codes)
preserves strict lexicographic order. -/
theorem FrameNames.lex_digitCodes {l₁ l₂ : List ℕ}
    (h : List.Lex (· < ·) l₁ l₂) :
    List.Lex (· < ·) (digitCodes l₁) (digitCodes l₂) := by
  induction h with
  | nil => exact List.Lex.nil
  | rel hr => exact List.Lex.rel (Nat.add_lt_add_left hr 48)
  | cons _ ih => exact List.Lex.cons ih

/-- Equal-length decimal representations compare lexicographically as the
numbers do. -/
theorem FrameNames.natRepr_lex :
    ∀ (b a : ℕ), a < b → (natRepr a).length = (natRepr b).length →
      List.Lex (· < ·) (natRepr a) (natRepr b) := by
  intro b
  induction b using Nat.strong_induction_on with
  | _ b ih =>
    intro a hab hlen
    by_cases hb : b < 10
    · rw [FrameNames.natRepr_lt10 hb, FrameNames.natRepr_lt10 (by omega)]
      exact List.Lex.rel hab
    · by_cases ha : a < 10
      · rw [FrameNames.natRepr_lt10 ha,
          FrameNames.natRepr_ge10 (show 10 ≤ b by omega), List.length_append]
          at hlen
        have hd := FrameNames.natRepr_len_pos (b / 10)
        simp only [List.length_singleton] at hlen
        omega
      · rw [FrameNames.natRepr_ge10 (show 10 ≤ a by omega),
          FrameNames.natRepr_ge10 (show 10 ≤ b by omega)]
        have hlen' : (natRepr (a / 10)).length = (natRepr (b / 10)).length := by
          rw [FrameNames.natRepr_ge10 (show 10 ≤ a by omega),
            FrameNames.natRepr_ge10 (show 10 ≤ b by omega),
            List.length_append, List.length_append] at hlen
          simp only [List.length_singleton] at hlen
          omega
        have hdivle : a / 10 ≤ b / 10 := Nat.div_le_div_right (by omega)
        rcases Nat.lt_or_ge (a / 10) (b / 10) with hdiv | hdiv
        · exact FrameNames.lex_append_of_length_eq
            (ih (b / 10) (by omega) (a / 10) hdiv hlen') hlen' _ _
        · have heq : a / 10 = b / 10 := by omega
          rw [heq]
          refine List.Lex.append_left _ ?_ _
          exact List.Lex.rel (by omega)

/-- Zero-padded equal-width decimal digit lists compare lexicographically
as the numbers do, for numbers that fit in the width. -/
theorem FrameNames.padded_lex (w a b : ℕ) (hab : a < b) (hb : b < 10 ^ w)
    (hw : 1 ≤ w) :
    List.Lex (· < ·)
      (List.replicate (w - (natRepr a).length) 0 ++ natRepr a)
      (List.replicate (w - (natRepr b).length) 0 ++ natRepr b) := by
  have hla := FrameNames.natRepr_len_pos a
  have hlb := FrameNames.natRepr_len_pos b
  have hmono : (natRepr a).length ≤ (natRepr b).length :=
    FrameNames.natRepr_len_mono b a (Nat.le_of_lt hab)
  have hlbw : (natRepr b).length ≤ w := FrameNames.natRepr_len_le w b hw hb
  rcases eq_or_lt_of_le hmono with heq | hlt
  · rw [heq]
    exact List.Lex.append_left _ (FrameNames.natRepr_lex b a hab heq) _
  · have hb10 : 10 ≤ b := by
      by_contra hb10
      have : natRepr b = [b] := FrameNames.natRepr_lt10 (by omega)
      rw [this] at hlt
      simp only [List.length_singleton] at hlt
      omega
    obtain ⟨d, t, hrepr, hd⟩ := FrameNames.natRepr_head_pos b hb10
    have hsplit : w - (natRepr a).length
        = (w - (natRepr b).length) + ((natRepr b).length - (natRepr a).length) := by
      omega
    rw [hsplit, List.replicate_add, List.append_assoc]
    refine List.Lex.append_left _ ?_ _
    obtain ⟨k, hk⟩ : ∃ k, (natRepr b).length - (natRepr a).length = k + 1 :=
      ⟨(natRepr b).length - (natRepr a).length - 1, by omega⟩
    rw [hk, List.replicate_succ, List.cons_append, hrepr]
    exact List.Lex.rel (by omega)

/-- Padding the digit codes is the digit-coding of padding the digits. -/
theorem FrameNames.padStart_digitCodes (w n : ℕ) :
    padStart w 48 (digitCodes (natRepr n))
      = digitCodes (List.replicate (w - (natRepr n).length) 0 ++ natRepr n) := by
  simp [padStart, digitCodes, List.map_replicate]

/-- The padded digit-code block has width exactly `w` when the number
fits. -/
theorem FrameNames.padStart_length (w n : ℕ)
    (h : (natRepr n).length ≤ w) :
    (padStart w 48 (digitCodes (natRepr n))).length = w := by
  rw [padStart, List.length_append, List.length_replicate, digitCodes,
    List.length_map]
  omega

/-- C9 (counterexample): with the source's pad width 5, the frame
filenames of ordinals `99999 < 100000` are NOT in lexicographic order —
`String(100000)` is six characters, so `"frame_100000.jpg"` sorts before
`"frame_99999.jpg"`. -/
theorem FrameNames.frameFilename_lex_cex :
    ¬ List.Lex (· < ·) (frameFilename 5 ".jpg" 99999)
        (frameFilename 5 ".jpg" 100000) := by
  decide

/-- C9 (amended): for any two frame ordinals `i < j` of the same job that
both fit in the pad width (`j < 10^w`, width 5 for the jpg variants and 6
for the png variants), the persisted frame filenames are fixed-width
zero-padded and lexicographic order coincides with numeric order. -/
theorem FrameNames.frameFilename_lex (w : ℕ) (ext : String) (i j : ℕ)
    (hij : i < j) (hj : j < 10 ^ w) :
    List.Lex (· < ·) (frameFilename w ext i) (frameFilename w ext j) := by
  rcases Nat.eq_zero_or_pos w with hw | hw
  · subst hw
    simp at hj
    omega
  · rw [frameFilename, frameFilename, List.append_assoc, List.append_assoc]
    refine List.Lex.append_left _ ?_ _
    refine FrameNames.lex_append_of_length_eq ?_ ?_ _ _
    · rw [FrameNames.padStart_digitCodes, FrameNames.padStart_digitCodes]
      exact FrameNames.lex_digitCodes (FrameNames.padded_lex w i j hij hj hw)
    · rw [FrameNames.padStart_length w i
          (FrameNames.natRepr_len_le w i hw (by omega)),
        FrameNames.padStart_length w j (FrameNames.natRepr_len_le w j hw hj)]

/-- Witness for the amended C9 theorem at `w = 5`, ordinals `3 < 42`. -/
theorem FrameNames.frameFilename_lex_witness :
    List.Lex (· < ·) (frameFilename 5 ".jpg" 3) (frameFilename 5 ".jpg" 42) :=
  FrameNames.frameFilename_lex 5 ".jpg" 3 42 (by norm_num) (by norm_num)
